import Mathlib

/-!
Verification of the ring all-to-all personalized exchange

This file embeds the exchange engine of `src/alltoall_personalized.c` in Lean
and proves the specification's properties about it.

The embedding follows the C source:

* `compact_array` models the in-place left-shift loop of the C function of the
  same name (lines 59-63), acting on the physical array contents, with
  out-of-range cells read as the default `0` (well-formed runs never read
  out of range).
* `initBuf` models the initial buffer construction loop (lines 81-90): for
  `i < rank` it places `msg_arr[i]` at position `i`, skips `i = rank`, and for
  `i > rank` places `msg_arr[i]` at position `i-1`; i.e. it appends
  `msg_arr i` for every `i` in increasing order except `i = rank`.
* `origin` and `dataIndex` are the scheduling arithmetic of lines 108 and 113.
* `execRound` models one iteration of the round loop (lines 94-123) for all
  ranks at once over a reliable FIFO ring transport: in round `i` every rank
  sends the first `num_proc - i` elements of its buffer to its successor, so
  each rank receives the first `num_proc - i` elements of its predecessor's
  buffer, extracts the element at `dataIndex` into `res_arr[origin]`, and
  compacts the received buffer.
* `stateAfter` iterates the rounds; `all_to_all_personalized` runs all
  `num_proc - 1` rounds from the initial state (buffer construction plus the
  self-delivery store of line 92).

Result cells are `Option Int`: `none` models a not-yet-written cell of the
uninitialized C array `res_arr`.
-/

namespace RingAllToAll

/-- Model of the C function `compact_array` (lines 59-63):
`for(i = idx+1; i < size; i++) arr[i-1] = arr[i];`.
The loop variable is `i = idx + 1 + k` for `k = 0 .. size - idx - 2`; each
step writes the current cell `idx + k` with the (still unmodified) cell
`idx + k + 1`. Cells are read with default `0`; writes past the end of the
list are dropped (a well-formed caller never performs them). -/
def compact_array (idx : Nat) (arr : List Int) (size : Nat) : List Int :=
  (List.range (size - (idx + 1))).foldl
    (fun a k => a.set (idx + k) (a.getD (idx + k + 1) 0)) arr

/-- Model of the initial buffer construction loop (lines 81-90): the cells
`buf[i]` for `i < rank` and `buf[i-1]` for `i > rank` are exactly the values
`msg_arr i`, `i ≠ rank`, laid out in increasing order of `i`. -/
def initBuf (msg_arr : Nat → Int) (rank num_proc : Nat) : List Int :=
  (List.range num_proc).filterMap
    (fun i => if i = rank then none else some (msg_arr i))

/-- The scheduling arithmetic of line 108:
`int origin = (num_proc + rank - i) % num_proc;`. -/
def origin (num_proc rank i : Nat) : Nat := (num_proc + rank - i) % num_proc

/-- The extraction index of line 113:
`int data_index = (origin <= rank) ? origin : 0;`. -/
def dataIndex (rank org : Nat) : Nat := if org ≤ rank then org else 0

/-- Global state of one run: each rank's circulating buffer and its result
array. A result cell is `none` while the corresponding cell of the
uninitialized C array `res_arr` has not been stored to yet. -/
structure RingState where
  bufs : Nat → List Int
  res : Nat → Nat → Option Int

/-- State after the initial buffer construction (lines 81-90) and the
self-delivery store `res_arr[rank] = msg_arr[rank]` (line 92), before any
round executes. `msg r k` is the value rank `r` holds for destination `k`. -/
def initState (num_proc : Nat) (msg : Nat → Nat → Int) : RingState where
  bufs := fun r => initBuf (msg r) r num_proc
  res := fun r k => if k = r then some (msg r r) else none

/-- One round of the loop of lines 94-123, executed by every rank over the
reliable FIFO ring: rank `r` sends the first `num_proc - i` elements of its
buffer to `(r + 1) % num_proc`, hence receives the first `num_proc - i`
elements of the buffer of `(r + num_proc - 1) % num_proc` (line 106, 110),
stores the received element at `data_index` into `res_arr[origin]`
(lines 113-114) and compacts the received buffer (line 116). -/
def execRound (num_proc i : Nat) (st : RingState) : RingState where
  bufs := fun r =>
    let recvd := (st.bufs ((r + num_proc - 1) % num_proc)).take (num_proc - i)
    compact_array (dataIndex r (origin num_proc r i)) recvd (num_proc - i)
  res := fun r k =>
    let recvd := (st.bufs ((r + num_proc - 1) % num_proc)).take (num_proc - i)
    if k = origin num_proc r i then
      some (recvd.getD (dataIndex r (origin num_proc r i)) 0)
    else st.res r k

/-- Global state after the first `n` rounds (rounds are numbered `1 ..`,
matching the loop counter `i` of line 94). -/
def stateAfter (num_proc : Nat) (msg : Nat → Nat → Int) : Nat → RingState
  | 0 => initState num_proc msg
  | n + 1 => execRound num_proc (n + 1) (stateAfter num_proc msg n)

/-- The whole exchange: all `num_proc - 1` rounds of the loop of line 94. -/
def all_to_all_personalized (num_proc : Nat) (msg : Nat → Nat → Int) :
    RingState :=
  stateAfter num_proc msg (num_proc - 1)

/-- Ring hop distance from `o` to `k`: the number of ring edges a message
originated at rank `o` crosses to reach rank `k` (spec glossary). -/
def hopDist (num_proc o k : Nat) : Nat := (num_proc + k - o) % num_proc

/-- Destinations whose messages are still in transit in a buffer that
originated at rank `o`, at the start of round `i`: those at hop distance at
least `i` from `o`, in increasing rank order. Spec-level description used to
state the circulating-buffer invariant. -/
def remDests (num_proc o i : Nat) : List Nat :=
  (List.range num_proc).filter (fun k => i ≤ hopDist num_proc o k)

/-! ## Characterization of `compact_array` -/

lemma compact_fold_length (idx : Nat) (arr : List Int) (n : Nat) :
    ((List.range n).foldl
      (fun a k => a.set (idx + k) (a.getD (idx + k + 1) 0)) arr).length
      = arr.length := by
  induction n with
  | zero => rfl
  | succ m ih =>
      rw [List.range_succ, List.foldl_append]
      simp only [List.foldl_cons, List.foldl_nil]
      rw [List.length_set]
      exact ih

lemma compact_fold_getD (idx : Nat) (arr : List Int) (n : Nat) (p : Nat) :
    ((List.range n).foldl
      (fun a k => a.set (idx + k) (a.getD (idx + k + 1) 0)) arr).getD p 0
      = if idx ≤ p ∧ p < idx + n then arr.getD (p + 1) 0 else arr.getD p 0 := by
  induction n generalizing p with
  | zero =>
      have h : ¬ (idx ≤ p ∧ p < idx + 0) := by omega
      simp only [List.range_zero, List.foldl_nil, if_neg h]
  | succ m ih =>
      rw [List.range_succ, List.foldl_append]
      simp only [List.foldl_cons, List.foldl_nil]
      set F := (List.range m).foldl
        (fun a k => a.set (idx + k) (a.getD (idx + k + 1) 0)) arr with hF
      have hFlen : F.length = arr.length := compact_fold_length idx arr m
      have hval : F.getD (idx + m + 1) 0 = arr.getD (idx + m + 1) 0 := by
        rw [ih]
        have : ¬ (idx ≤ idx + m + 1 ∧ idx + m + 1 < idx + m) := by omega
        rw [if_neg this]
      rw [List.getD_eq_getElem?_getD, List.getElem?_set, hval]
      by_cases hp : idx + m = p
      · subst hp
        by_cases hlt : idx + m < F.length
        · rw [if_pos rfl, if_pos hlt]
          have : idx ≤ idx + m ∧ idx + m < idx + (m + 1) := by omega
          simp only [Option.getD_some, if_pos this]
        · rw [if_pos rfl, if_neg hlt]
          have h1 : arr.length ≤ idx + m := by omega
          have h2 : arr.length ≤ idx + m + 1 := by omega
          have : idx ≤ idx + m ∧ idx + m < idx + (m + 1) := by omega
          rw [if_pos this, List.getD_eq_default _ _ h2]
          simp
      · rw [if_neg hp, ← List.getD_eq_getElem?_getD, ih]
        by_cases hc : idx ≤ p ∧ p < idx + m
        · have : idx ≤ p ∧ p < idx + (m + 1) := by omega
          rw [if_pos hc, if_pos this]
        · have : ¬ (idx ≤ p ∧ p < idx + (m + 1)) := by omega
          rw [if_neg hc, if_neg this]

/-- Pointwise characterization of `compact_array`: positions `idx` through
`size - 2` take the old value of the next position; all other positions keep
their old value. -/
lemma compact_array_getD (idx : Nat) (arr : List Int) (size : Nat) (p : Nat) :
    (compact_array idx arr size).getD p 0
      = if idx ≤ p ∧ p + 1 < size then arr.getD (p + 1) 0
        else arr.getD p 0 := by
  unfold compact_array
  rw [compact_fold_getD]
  by_cases h : idx ≤ p ∧ p + 1 < size
  · have h' : idx ≤ p ∧ p < idx + (size - (idx + 1)) := by omega
    rw [if_pos h', if_pos h]
  · have h' : ¬ (idx ≤ p ∧ p < idx + (size - (idx + 1))) := by omega
    rw [if_neg h', if_neg h]

lemma compact_array_length (idx : Nat) (arr : List Int) (size : Nat) :
    (compact_array idx arr size).length = arr.length :=
  compact_fold_length idx arr _

lemma getD_eq_getElem_of_lt (l : List Int) {n : Nat} (h : n < l.length) :
    l.getD n 0 = l[n] :=
  List.getD_eq_getElem l 0 h

/-- The valid portion left by `compact_array`: the first `size - 1` cells
after compaction are the original list with the element at `idx` removed,
order preserved. -/
lemma compact_array_take (idx : Nat) (arr : List Int) (size : Nat)
    (hidx : idx < size) (hlen : arr.length = size) :
    (compact_array idx arr size).take (size - 1)
      = arr.take idx ++ arr.drop (idx + 1) := by
  apply List.ext_getElem
  · rw [List.length_take, compact_array_length, hlen, List.length_append,
      List.length_take, List.length_drop, hlen]
    omega
  · intro n h1 h2
    have hn : n < size - 1 := by
      rw [List.length_take, compact_array_length, hlen] at h1
      omega
    have hcl : n < (compact_array idx arr size).length := by
      rw [compact_array_length, hlen]; omega
    rw [List.getElem_take]
    rw [← getD_eq_getElem_of_lt _ hcl, compact_array_getD]
    have htl : idx ≤ arr.length := by omega
    by_cases hc : n < idx
    · have : ¬ (idx ≤ n ∧ n + 1 < size) := by omega
      rw [if_neg this]
      have hn' : n < (arr.take idx).length := by
        rw [List.length_take]; omega
      rw [List.getElem_append_left hn', List.getElem_take]
      exact getD_eq_getElem_of_lt _ (by omega)
    · have : idx ≤ n ∧ n + 1 < size := by omega
      rw [if_pos this]
      have hln : (arr.take idx).length ≤ n := by
        rw [List.length_take]; omega
      rw [List.getElem_append_right hln]
      rw [List.getElem_drop]
      have harr : n + 1 < arr.length := by omega
      rw [getD_eq_getElem_of_lt _ harr]
      congr 1
      rw [List.length_take]
      omega

/-! ## Arithmetic of `hopDist` and `origin` -/

lemma hopDist_eq {N o k : Nat} (ho : o < N) (hk : k < N) :
    hopDist N o k = if o ≤ k then k - o else N + k - o := by
  unfold hopDist
  by_cases h : o ≤ k
  · rw [if_pos h]
    have h1 : N + k - o = N + (k - o) := by omega
    rw [h1, Nat.add_mod_left]
    exact Nat.mod_eq_of_lt (by omega)
  · rw [if_neg h]
    exact Nat.mod_eq_of_lt (by omega)

lemma hopDist_lt {N o k : Nat} (hN : 0 < N) : hopDist N o k < N :=
  Nat.mod_lt _ hN

lemma hopDist_self {N r : Nat} (hr : r < N) : hopDist N r r = 0 := by
  unfold hopDist
  have h : N + r - r = N := by omega
  rw [h, Nat.mod_self]

lemma hopDist_pos {N a b : Nat} (ha : a < N) (hb : b < N) (hne : a ≠ b) :
    1 ≤ hopDist N a b := by
  rw [hopDist_eq ha hb]
  split <;> omega

lemma origin_lt {N r i : Nat} (hN : 0 < N) : origin N r i < N :=
  Nat.mod_lt _ hN

lemma origin_zero {N r : Nat} (hr : r < N) : origin N r 0 = r := by
  unfold origin
  have h : N + r - 0 = N + r := by omega
  rw [h, Nat.add_mod_left]
  exact Nat.mod_eq_of_lt hr

lemma origin_spec {N r i : Nat} (hr : r < N) (hi : i ≤ N) :
    origin N r i = if i ≤ r then r - i else N + r - i := by
  unfold origin
  by_cases h : i ≤ r
  · rw [if_pos h]
    have h1 : N + r - i = N + (r - i) := by omega
    rw [h1, Nat.add_mod_left]
    exact Nat.mod_eq_of_lt (by omega)
  · rw [if_neg h]
    exact Nat.mod_eq_of_lt (by omega)

/-- The rank computed at line 108 is precisely the rank at hop distance `i`
behind `r` on the ring. -/
lemma hopDist_origin {N r i : Nat} (hr : r < N) (h1 : 1 ≤ i)
    (h2 : i ≤ N - 1) : hopDist N (origin N r i) r = i := by
  rw [origin_spec hr (by omega)]
  by_cases h : i ≤ r
  · rw [if_pos h, hopDist_eq (by omega) hr, if_pos (by omega)]
    omega
  · rw [if_neg h, hopDist_eq (by omega) hr, if_neg (by omega)]
    omega

lemma origin_hopDist {N a b : Nat} (ha : a < N) (hb : b < N) (hne : a ≠ b) :
    origin N b (hopDist N a b) = a := by
  rw [hopDist_eq ha hb, origin_spec hb (by split <;> omega)]
  by_cases h : a ≤ b
  · rw [if_pos h, if_pos (by omega)]
    omega
  · rw [if_neg h, if_neg (by omega)]
    omega

lemma origin_inj {N r i j : Nat} (hr : r < N) (hi1 : 1 ≤ i) (hi2 : i ≤ N - 1)
    (hj1 : 1 ≤ j) (hj2 : j ≤ N - 1) (h : origin N r i = origin N r j) :
    i = j := by
  have e1 := hopDist_origin hr hi1 hi2
  have e2 := hopDist_origin hr hj1 hj2
  rw [h] at e1
  omega

lemma origin_ne_self {N r i : Nat} (hr : r < N) (h1 : 1 ≤ i)
    (h2 : i ≤ N - 1) : origin N r i ≠ r := by
  intro h
  have e := hopDist_origin hr h1 h2
  rw [h, hopDist_self hr] at e
  omega

/-- The origin of the buffer the predecessor holds at the start of round
`n + 1` (i.e. the buffer `r` is about to receive) is `origin N r (n + 1)`. -/
lemma origin_pred {N r n : Nat} (hr : r < N) (hn : n + 1 ≤ N - 1) :
    origin N ((r + N - 1) % N) n = origin N r (n + 1) := by
  have hp : (r + N - 1) % N = if r = 0 then N - 1 else r - 1 := by
    by_cases h : r = 0
    · rw [if_pos h]
      subst h
      have h0 : 0 + N - 1 = N - 1 := by omega
      rw [h0]
      exact Nat.mod_eq_of_lt (by omega)
    · rw [if_neg h]
      have h1 : r + N - 1 = (r - 1) + N := by omega
      rw [h1, Nat.add_mod_right]
      exact Nat.mod_eq_of_lt (by omega)
  rw [hp]
  by_cases h : r = 0
  · rw [if_pos h]
    subst h
    rw [@origin_spec N (N - 1) n (by omega) (by omega),
      @origin_spec N 0 (n + 1) (by omega) (by omega)]
    rw [if_pos (by omega), if_neg (by omega)]
    omega
  · rw [if_neg h]
    rw [@origin_spec N (r - 1) n (by omega) (by omega),
      @origin_spec N r (n + 1) hr (by omega)]
    by_cases h2 : n + 1 ≤ r
    · rw [if_pos (by omega), if_pos h2]
      omega
    · rw [if_neg (by omega), if_neg h2]
      omega

/-! ## Closed form of `remDests` -/

lemma remDests_sorted (N o i : Nat) :
    List.Pairwise (fun a b => a < b) (remDests N o i) :=
  List.Pairwise.filter _ (List.pairwise_lt_range N)

lemma remDests_nodup (N o i : Nat) : (remDests N o i).Nodup :=
  List.Nodup.filter _ (List.nodup_range N)

lemma mem_remDests {N o i k : Nat} :
    k ∈ remDests N o i ↔ k < N ∧ i ≤ hopDist N o k := by
  simp only [remDests, List.mem_filter, List.mem_range, decide_eq_true_eq]

lemma remDests_eq_of_le {N o i : Nat} (ho : o < N) (h1 : 1 ≤ i)
    (hoi : o + i ≤ N) :
    remDests N o i = List.range o ++ List.range' (o + i) (N - (o + i)) := by
  have antisymm : IsAntisymm Nat (fun a b => a < b) :=
    ⟨fun a b h h' => absurd h' (Nat.lt_asymm h)⟩
  have hs2 : List.Pairwise (fun a b => a < b)
      (List.range o ++ List.range' (o + i) (N - (o + i))) := by
    rw [List.pairwise_append]
    refine ⟨List.pairwise_lt_range o, List.pairwise_lt_range' _ _, ?_⟩
    intro a ha b hb
    rw [List.mem_range] at ha
    rw [List.mem_range'_1] at hb
    omega
  refine @List.eq_of_perm_of_sorted Nat (fun a b => a < b) antisymm _ _
    ?_ (remDests_sorted N o i) hs2
  refine (List.perm_ext_iff_of_nodup (remDests_nodup N o i) ?_).mpr ?_
  · exact hs2.imp (fun h => Nat.ne_of_lt h)
  · intro a
    rw [mem_remDests, List.mem_append, List.mem_range, List.mem_range'_1]
    constructor
    · rintro ⟨haN, hle⟩
      rw [hopDist_eq ho haN] at hle
      split at hle <;> omega
    · intro h
      have haN : a < N := by rcases h with h | h <;> omega
      refine ⟨haN, ?_⟩
      rw [hopDist_eq ho haN]
      rcases h with h | h <;> split <;> omega

lemma remDests_eq_of_gt {N o i : Nat} (ho : o < N) (h2 : i ≤ N)
    (hoi : N < o + i) :
    remDests N o i = List.range' (o + i - N) (N - i) := by
  have antisymm : IsAntisymm Nat (fun a b => a < b) :=
    ⟨fun a b h h' => absurd h' (Nat.lt_asymm h)⟩
  have hs2 : List.Pairwise (fun a b => a < b)
      (List.range' (o + i - N) (N - i)) := List.pairwise_lt_range' _ _
  refine @List.eq_of_perm_of_sorted Nat (fun a b => a < b) antisymm _ _
    ?_ (remDests_sorted N o i) hs2
  refine (List.perm_ext_iff_of_nodup (remDests_nodup N o i) ?_).mpr ?_
  · exact hs2.imp (fun h => Nat.ne_of_lt h)
  · intro a
    rw [mem_remDests, List.mem_range'_1]
    constructor
    · rintro ⟨haN, hle⟩
      rw [hopDist_eq ho haN] at hle
      split at hle <;> omega
    · intro h
      have haN : a < N := by omega
      refine ⟨haN, ?_⟩
      rw [hopDist_eq ho haN]
      split <;> omega

lemma remDests_length {N o i : Nat} (ho : o < N) (h1 : 1 ≤ i) (h2 : i ≤ N) :
    (remDests N o i).length = N - i := by
  by_cases hoi : o + i ≤ N
  · rw [remDests_eq_of_le ho h1 hoi, List.length_append, List.length_range,
      List.length_range']
    omega
  · rw [remDests_eq_of_gt ho h2 (by omega), List.length_range']

/-- At the round where the hop distance from the buffer's origin `o` to the
holder `r` equals the round number `i`, the element destined for `r` sits at
position `dataIndex r o` of the remaining-destination list. -/
lemma remDests_getElem? {N o r i : Nat} (ho : o < N) (hr : r < N)
    (hd : hopDist N o r = i) (h1 : 1 ≤ i) (h2 : i ≤ N - 1) :
    (remDests N o i)[dataIndex r o]? = some r := by
  by_cases hor : o ≤ r
  · have hi : i = r - o := by
      rw [hopDist_eq ho hr, if_pos hor] at hd
      omega
    have hdi : dataIndex r o = o := if_pos hor
    rw [hdi, remDests_eq_of_le ho h1 (by omega)]
    rw [List.getElem?_append_right (by rw [List.length_range])]
    rw [List.length_range]
    have hsub : o - o = 0 := by omega
    rw [hsub, List.getElem?_range' _ _ (by omega)]
    congr 1
    omega
  · have hi : i = N + r - o := by
      rw [hopDist_eq ho hr, if_neg hor] at hd
      omega
    have hdi : dataIndex r o = 0 := if_neg hor
    rw [hdi]
    by_cases hoi : o + i ≤ N
    · rw [remDests_eq_of_le ho h1 hoi]
      have hr0 : r = 0 := by omega
      have ho1 : 1 ≤ o := by omega
      rw [List.getElem?_append_left (by rw [List.length_range]; omega)]
      rw [List.getElem?_range (by omega), hr0]
    · rw [remDests_eq_of_gt ho (by omega) (by omega)]
      rw [List.getElem?_range' _ _ (by omega)]
      congr 1
      omega

/-- Removing the just-delivered destination `r` from the
remaining-destination list of round `i` yields that of round `i + 1`. -/
lemma remDests_removeAt {N o r i : Nat} (ho : o < N) (hr : r < N)
    (hd : hopDist N o r = i) (h1 : 1 ≤ i) (h2 : i ≤ N - 1) :
    (remDests N o i).take (dataIndex r o)
        ++ (remDests N o i).drop (dataIndex r o + 1)
      = remDests N o (i + 1) := by
  by_cases hor : o ≤ r
  · have hi : i = r - o := by
      rw [hopDist_eq ho hr, if_pos hor] at hd
      omega
    have hdi : dataIndex r o = o := if_pos hor
    have hoi : o + i = r := by omega
    rw [hdi, remDests_eq_of_le ho h1 (by omega), hoi]
    have hlr : (List.range o).length = o := List.length_range o
    have htake : (List.range o ++ List.range' r (N - r)).take o
        = List.range o := by
      conv in List.take o => rw [← hlr]
      exact List.take_left _ _
    have hNr : N - r = N - r - 1 + 1 := by omega
    have hcons : List.range' r (N - r) = r :: List.range' (r + 1) (N - r - 1) := by
      have h := List.range'_succ r (N - r - 1) 1
      rw [← hNr] at h
      exact h
    have hdrop : (List.range o ++ List.range' r (N - r)).drop (o + 1)
        = List.range' (r + 1) (N - r - 1) := by
      have h1' : o + 1 = (List.range o).length + 1 := by rw [hlr]
      rw [h1', List.drop_append, hcons]
      rfl
    rw [htake, hdrop, remDests_eq_of_le ho (by omega) (by omega)]
    have e2 : N - (o + (i + 1)) = N - r - 1 := by omega
    have e1 : o + (i + 1) = r + 1 := by omega
    rw [e2, e1]
  · have hi : i = N + r - o := by
      rw [hopDist_eq ho hr, if_neg hor] at hd
      omega
    have hdi : dataIndex r o = 0 := if_neg hor
    rw [hdi, List.take_zero, List.nil_append, Nat.zero_add]
    by_cases hoi : o + i ≤ N
    · have hr0 : r = 0 := by omega
      have hoiN : o + i = N := by omega
      rw [remDests_eq_of_le ho h1 hoi, hoiN]
      have hnil : List.range' N (N - N) = [] := by
        have hNN : N - N = 0 := by omega
        rw [hNN]
        rfl
      rw [hnil, List.append_nil]
      have hcons : List.range o = 0 :: List.range' 1 (o - 1) := by
        have h := List.range'_succ 0 (o - 1) 1
        have ho' : o - 1 + 1 = o := by omega
        rw [ho'] at h
        rw [List.range_eq_range', h, Nat.zero_add]
      rw [hcons, List.drop_one, List.tail_cons]
      rw [remDests_eq_of_gt ho (by omega) (by omega)]
      have e2 : N - (i + 1) = o - 1 := by omega
      have e1 : o + (i + 1) - N = 1 := by omega
      rw [e1, e2]
    · rw [remDests_eq_of_gt ho (by omega) (by omega)]
      have hcons : List.range' (o + i - N) (N - i)
          = (o + i - N) :: List.range' (o + i - N + 1) (N - i - 1) := by
        have h := List.range'_succ (o + i - N) (N - i - 1) 1
        have hNi : N - i - 1 + 1 = N - i := by omega
        rw [hNi] at h
        exact h
      rw [hcons, List.drop_one, List.tail_cons]
      rw [remDests_eq_of_gt ho (by omega) (by omega)]
      have e2 : N - (i + 1) = N - i - 1 := by omega
      have e1 : o + (i + 1) - N = o + i - N + 1 := by omega
      rw [e1, e2]

/-! ## The circulating-buffer invariant -/

lemma filterMap_if_eq_map_filter (m : Nat → Int) (rank : Nat) (l : List Nat) :
    l.filterMap (fun i => if i = rank then none else some (m i))
      = (l.filter (fun i => ¬ i = rank)).map m := by
  induction l with
  | nil => rfl
  | cons a t ih =>
      by_cases h : a = rank
      · subst h
        simp [List.filterMap_cons, List.filter_cons, ih]
      · simp [List.filterMap_cons, List.filter_cons, h, ih]

/-- The buffer built at lines 81-90 is the increasing-destination list of
`msg` values with the self slot removed: the remaining-destination list at
hop distance `≥ 1` from `rank`. -/
lemma initBuf_eq (m : Nat → Int) (rank N : Nat) (hr : rank < N) :
    initBuf m rank N = (remDests N rank 1).map m := by
  unfold initBuf
  rw [filterMap_if_eq_map_filter]
  congr 1
  unfold remDests
  apply List.filter_congr
  intro k hk
  rw [List.mem_range] at hk
  rw [decide_eq_decide, hopDist_eq hr hk]
  split <;> omega

/-- Circulating-buffer invariant: after `n` rounds (at the start of round
`n + 1`), the valid portion of rank `r`'s buffer is exactly the values of
`msg o` for the destinations still at hop distance `≥ n + 1` from
`o = origin N r n`, in increasing destination order. -/
lemma buf_invariant (N : Nat) (msg : Nat → Nat → Int) :
    ∀ n, n ≤ N - 1 → ∀ r, r < N →
      ((stateAfter N msg n).bufs r).take (N - n - 1)
        = (remDests N (origin N r n) (n + 1)).map (msg (origin N r n)) := by
  intro n
  induction n with
  | zero =>
      intro _ r hr
      simp only [stateAfter, initState]
      rw [origin_zero hr, initBuf_eq _ _ _ hr]
      have hlen : ((remDests N r 1).map (msg r)).length = N - 1 := by
        rw [List.length_map, remDests_length hr (by omega) (by omega)]
      have hN01 : N - 0 - 1 = N - 1 := by omega
      rw [hN01, ← hlen, List.take_length]
  | succ n ih =>
      intro hn r hr
      have hN2 : 2 ≤ N := by omega
      have hp : (r + N - 1) % N < N := Nat.mod_lt _ (by omega)
      have hrecvd := ih (by omega) ((r + N - 1) % N) hp
      rw [origin_pred hr hn] at hrecvd
      have ho : origin N r (n + 1) < N := origin_lt (by omega)
      have hdist : hopDist N (origin N r (n + 1)) r = n + 1 :=
        hopDist_origin hr (by omega) hn
      have hlenD : (remDests N (origin N r (n + 1)) (n + 1)).length
          = N - (n + 1) := remDests_length ho (by omega) (by omega)
      have hget := remDests_getElem? ho hr hdist (by omega) hn
      have hrem := remDests_removeAt ho hr hdist (by omega) hn
      have hdiL : dataIndex r (origin N r (n + 1))
          < (remDests N (origin N r (n + 1)) (n + 1)).length := by
        rcases List.getElem?_eq_some.mp hget with ⟨h, _⟩
        exact h
      simp only [stateAfter, execRound]
      have hidx : N - (n + 1) = N - n - 1 := by omega
      rw [hidx] at hlenD ⊢
      rw [hrecvd]
      have hlen' : ((remDests N (origin N r (n + 1)) (n + 1)).map
          (msg (origin N r (n + 1)))).length = N - n - 1 := by
        rw [List.length_map, hlenD]
      rw [compact_array_take _ _ _ (by omega) hlen']
      rw [← List.map_take, ← List.map_drop, ← List.map_append, hrem]

/-! ## Evolution of the result array -/

/-- The buffer received by rank `r` in round `n + 1` holds the values of
`msg o` for the destinations still at hop distance `≥ n + 1` from
`o = origin N r (n + 1)`. -/
lemma recvd_eq (N : Nat) (msg : Nat → Nat → Int) (n r : Nat)
    (hn : n + 1 ≤ N - 1) (hr : r < N) :
    ((stateAfter N msg n).bufs ((r + N - 1) % N)).take (N - (n + 1))
      = (remDests N (origin N r (n + 1)) (n + 1)).map
          (msg (origin N r (n + 1))) := by
  have hp : (r + N - 1) % N < N := Nat.mod_lt _ (by omega)
  have h := buf_invariant N msg n (by omega) _ hp
  rw [origin_pred hr hn] at h
  have hidx : N - (n + 1) = N - n - 1 := by omega
  rw [hidx]
  exact h

/-- Round `n + 1` stores into `res_arr[origin]` exactly the value that
`origin` destined for `r`. -/
lemma res_round (N : Nat) (msg : Nat → Nat → Int) (n r : Nat)
    (hn : n + 1 ≤ N - 1) (hr : r < N) :
    (stateAfter N msg (n + 1)).res r (origin N r (n + 1))
      = some (msg (origin N r (n + 1)) r) := by
  have ho : origin N r (n + 1) < N := origin_lt (by omega)
  have hdist : hopDist N (origin N r (n + 1)) r = n + 1 :=
    hopDist_origin hr (by omega) hn
  have hget := remDests_getElem? ho hr hdist (by omega) hn
  simp only [stateAfter, execRound]
  rw [if_pos trivial, recvd_eq N msg n r hn hr]
  rw [List.getD_eq_getElem?_getD, List.getElem?_map, hget]
  rfl

/-- A result cell not targeted by any of the rounds `n + 1 .. m` keeps its
value from state `n`. -/
lemma res_persist (N : Nat) (msg : Nat → Nat → Int) (r k : Nat) :
    ∀ m n, n ≤ m →
      (∀ j, n + 1 ≤ j → j ≤ m → origin N r j ≠ k) →
      (stateAfter N msg m).res r k = (stateAfter N msg n).res r k := by
  intro m
  induction m with
  | zero =>
      intro n h _
      have h0 : n = 0 := by omega
      rw [h0]
  | succ m ih =>
      intro n hnm hav
      by_cases hc : n = m + 1
      · rw [hc]
      · have h1 : n ≤ m := by omega
        have hstep : (stateAfter N msg (m + 1)).res r k
            = (stateAfter N msg m).res r k := by
          simp only [stateAfter, execRound]
          rw [if_neg]
          intro h
          exact hav (m + 1) (by omega) (le_refl _) h.symm
        rw [hstep]
        exact ih n h1 (fun j hj1 hj2 => hav j hj1 (by omega))

/-- Value of an untouched cell at the initial state. -/
lemma res_init (N : Nat) (msg : Nat → Nat → Int) (r k : Nat) :
    (stateAfter N msg 0).res r k = if k = r then some (msg r r) else none :=
  rfl

/-- The value rank `b` ends up holding at `res_arr[a]` is the value rank `a`
destined for `b`. -/
lemma res_final (N : Nat) (msg : Nat → Nat → Int) (a b : Nat)
    (ha : a < N) (hb : b < N) :
    (stateAfter N msg (N - 1)).res b a = some (msg a b) := by
  by_cases hab : a = b
  · have hpers := res_persist N msg b a (N - 1) 0 (by omega)
      (fun j h1 h2 => by
        rw [hab]
        exact origin_ne_self hb h1 h2)
    rw [hpers, res_init, if_pos hab, hab]
  · have hd1 : 1 ≤ hopDist N a b := hopDist_pos ha hb hab
    have hdN : hopDist N a b < N := @hopDist_lt N a b (by omega)
    obtain ⟨n, hn⟩ : ∃ n, hopDist N a b = n + 1 :=
      ⟨hopDist N a b - 1, by omega⟩
    have horig : origin N b (n + 1) = a := by
      rw [← hn]
      exact origin_hopDist ha hb hab
    have hres := res_round N msg n b (by omega) hb
    rw [horig] at hres
    have hpers := res_persist N msg b a (N - 1) (n + 1) (by omega)
      (fun j hj1 hj2 hcontra => by
        have := origin_inj hb (by omega) (by omega) (by omega) (by omega)
          (hcontra.trans horig.symm)
        omega)
    rw [hpers, hres]

/-! ## Timing model

`MPI_Wtime` readings are modelled as an oracle `ev : Nat → ℚ` of clock
values at the successive events of the run, laid out as: `ev 0` is the
reading of line 76 (function entry); for the round with 0-based index `j`
(loop counter `i = j + 1`), `ev (4*j+1)` is the clock instant at which
`MPI_Send` (line 97) is entered, `ev (4*j+2)` is the reading of line 100
(just after the send returns), `ev (4*j+3)` is the reading of line 105
(just before `MPI_Recv`), and `ev (4*j+4)` is the reading of line 111
(just after the receive returns). The code reads only `ev 0`, `ev (4*j+2)`,
`ev (4*j+3)` and `ev (4*j+4)`. -/

/-- The value the C code returns: `time_taken` starts as the entry reading
(line 76); each round executes `time_taken = disp_time - time_taken`
(line 101, with `disp_time` the line-100 reading) and then
`time_taken += disp_time` (line 119, with `disp_time` the difference of the
line-111 and line-105 readings). -/
def timeTakenModel (num_proc : Nat) (ev : Nat → ℚ) : ℚ :=
  (List.range (num_proc - 1)).foldl
    (fun tt j => (ev (4 * j + 2) - tt) + (ev (4 * j + 4) - ev (4 * j + 3)))
    (ev 0)

/-- The quantity the spec's timing contract describes (named from the
spec's words, for comparison with `timeTakenModel`): the accumulated
wall-clock time spent inside the send and receive calls across all rounds,
excluding display time: per round, (send return − send entry) plus
(receive return − receive entry). -/
def specCommTime (num_proc : Nat) (ev : Nat → ℚ) : ℚ :=
  (List.range (num_proc - 1)).foldl
    (fun acc j => acc + (ev (4 * j + 2) - ev (4 * j + 1))
      + (ev (4 * j + 4) - ev (4 * j + 3))) 0

/-- Concrete clock oracle for `N = 3`: the clock starts at 1000; each send
takes one time unit, every display and every receive is instantaneous.
Event times: entry 1000; round 1: send entered at 1000, returns at 1001,
receive entered and returns at 1001; round 2: send entered at 1001, returns
at 1002, receive entered and returns at 1002. -/
def exEv : Nat → ℚ := fun t =>
  if t = 0 ∨ t = 1 then 1000 else if t ≤ 5 then 1001 else 1002

/-- The spec's `N = 3` test scenario: rank 0 holds `[10, 20, 30]`, rank 1
holds `[40, 50, 60]`, rank 2 holds `[70, 80, 90]`. -/
def exMsg : Nat → Nat → Int := fun a b => 10 * (3 * (a : Int) + b) + 10

/-! ## The specification's claims -/

/-- C1: Global transpose correctness: for every `N ≥ 1` and every pair of
ranks `(a, b)` in `[0, N)`, when all `N` processes run
`all_to_all_personalized` to completion over the reliable FIFO ring
transport, the value process `b` holds at `res[a]` afterwards equals the
value process `a` held at `msg[b]` before the exchange began. -/
theorem global_transpose (N : Nat) (msg : Nat → Nat → Int) (hN : 1 ≤ N)
    (a b : Nat) (ha : a < N) (hb : b < N) :
    (all_to_all_personalized N msg).res b a = some (msg a b) :=
  res_final N msg a b ha hb

theorem global_transpose_witness :
    (all_to_all_personalized 3 exMsg).res 1 0 = some 20 :=
  (global_transpose 3 exMsg (by decide) 0 1 (by decide) (by decide)).trans
    (by decide)

/-- C2: Circulating-buffer invariant: for every `N ≥ 2` and rank `r`, at
the start of each round `i` (`i = 1 .. N-1`, i.e. after `i - 1` rounds) the
valid portion of the holder's buffer consists of exactly `N - i` values of
`msg o` (`o` the buffer's origin `origin N r (i-1)`), indexed by a
destination list that is strictly increasing, contains only ranks `< N`,
and does not contain the holder `r` itself. -/
theorem circulating_buffer_invariant (N : Nat) (msg : Nat → Nat → Int)
    (i r : Nat) (hN : 2 ≤ N) (h1 : 1 ≤ i) (h2 : i ≤ N - 1) (hr : r < N) :
    ((stateAfter N msg (i - 1)).bufs r).take (N - i)
        = (remDests N (origin N r (i - 1)) i).map (msg (origin N r (i - 1)))
      ∧ (remDests N (origin N r (i - 1)) i).length = N - i
      ∧ List.Pairwise (fun a b => a < b) (remDests N (origin N r (i - 1)) i)
      ∧ r ∉ remDests N (origin N r (i - 1)) i
      ∧ ∀ k ∈ remDests N (origin N r (i - 1)) i, k < N := by
  obtain ⟨n, hn⟩ : ∃ n, i = n + 1 := ⟨i - 1, by omega⟩
  subst hn
  have hi1 : n + 1 - 1 = n := by omega
  rw [hi1]
  have hinv := buf_invariant N msg n (by omega) r hr
  have ho : origin N r n < N := origin_lt (by omega)
  refine ⟨?_, ?_, remDests_sorted N _ _, ?_, ?_⟩
  · have hidx : N - (n + 1) = N - n - 1 := by omega
    rw [hidx]
    exact hinv
  · exact remDests_length ho (by omega) (by omega)
  · rw [mem_remDests]
    rintro ⟨-, hge⟩
    rcases Nat.eq_zero_or_pos n with h0 | hpos
    · subst h0
      rw [origin_zero hr, hopDist_self hr] at hge
      omega
    · have hh := @hopDist_origin N r n hr (by omega) (by omega)
      omega
  · intro k hk
    exact (mem_remDests.mp hk).1

theorem circulating_buffer_invariant_witness :
    ((stateAfter 3 exMsg (2 - 1)).bufs 0).take (3 - 2)
        = (remDests 3 (origin 3 0 (2 - 1)) 2).map (exMsg (origin 3 0 (2 - 1)))
      ∧ (remDests 3 (origin 3 0 (2 - 1)) 2).length = 3 - 2
      ∧ List.Pairwise (fun a b => a < b) (remDests 3 (origin 3 0 (2 - 1)) 2)
      ∧ 0 ∉ remDests 3 (origin 3 0 (2 - 1)) 2
      ∧ ∀ k ∈ remDests 3 (origin 3 0 (2 - 1)) 2, k < 3 :=
  circulating_buffer_invariant 3 exMsg 2 0 (by decide) (by decide)
    (by decide) (by decide)

/-- C3: Extraction rule: for every `N ≥ 2`, rank `r`, round `i` in
`1 .. N-1`: the rank whose message completes delivery is
`origin = (N + r - i) % N`; the extraction index is `origin` if
`origin ≤ r` and `0` otherwise; the freshly received buffer holds at that
index the value `origin` destined for `r`; and the engine stores that
element into `res[origin]`. -/
theorem extraction_rule (N : Nat) (msg : Nat → Nat → Int) (i r : Nat)
    (hN : 2 ≤ N) (h1 : 1 ≤ i) (h2 : i ≤ N - 1) (hr : r < N) :
    origin N r i = (N + r - i) % N
      ∧ dataIndex r (origin N r i)
          = (if origin N r i ≤ r then origin N r i else 0)
      ∧ (((stateAfter N msg (i - 1)).bufs ((r + N - 1) % N)).take
            (N - i)).getD (dataIndex r (origin N r i)) 0
          = msg (origin N r i) r
      ∧ (stateAfter N msg i).res r (origin N r i)
          = some ((((stateAfter N msg (i - 1)).bufs ((r + N - 1) % N)).take
              (N - i)).getD (dataIndex r (origin N r i)) 0) := by
  obtain ⟨n, hn⟩ : ∃ n, i = n + 1 := ⟨i - 1, by omega⟩
  subst hn
  have hi1 : n + 1 - 1 = n := by omega
  have ho : origin N r (n + 1) < N := origin_lt (by omega)
  have hdist : hopDist N (origin N r (n + 1)) r = n + 1 :=
    hopDist_origin hr (by omega) h2
  have hget := remDests_getElem? ho hr hdist (by omega) h2
  have hval : (((stateAfter N msg n).bufs ((r + N - 1) % N)).take
      (N - (n + 1))).getD (dataIndex r (origin N r (n + 1))) 0
      = msg (origin N r (n + 1)) r := by
    rw [recvd_eq N msg n r h2 hr, List.getD_eq_getElem?_getD,
      List.getElem?_map, hget]
    rfl
  refine ⟨rfl, rfl, ?_, ?_⟩
  · rw [hi1]
    exact hval
  · rw [hi1]
    have hres := res_round N msg n r h2 hr
    rw [hres, hval]

theorem extraction_rule_witness :
    origin 3 1 1 = (3 + 1 - 1) % 3
      ∧ dataIndex 1 (origin 3 1 1)
          = (if origin 3 1 1 ≤ 1 then origin 3 1 1 else 0)
      ∧ (((stateAfter 3 exMsg (1 - 1)).bufs ((1 + 3 - 1) % 3)).take
            (3 - 1)).getD (dataIndex 1 (origin 3 1 1)) 0
          = exMsg (origin 3 1 1) 1
      ∧ (stateAfter 3 exMsg 1).res 1 (origin 3 1 1)
          = some ((((stateAfter 3 exMsg (1 - 1)).bufs ((1 + 3 - 1) % 3)).take
              (3 - 1)).getD (dataIndex 1 (origin 3 1 1)) 0) :=
  extraction_rule 3 exMsg 1 1 (by decide) (by decide) (by decide) (by decide)

/-- C4: Initial buffer construction: for every `N ≥ 1`, `rank < N` and
message vector, the constructed buffer has length `N - 1`, satisfies
`buf[k] = msg[k]` for `k < rank` and `buf[k-1] = msg[k]` for
`rank < k < N`, and is exactly the increasing-destination map over the
destinations other than `rank` — so `msg[rank]` never enters it. -/
theorem initial_buffer_construction (N : Nat) (msg_arr : Nat → Int)
    (rank : Nat) (hN : 1 ≤ N) (hrank : rank < N) :
    (initBuf msg_arr rank N).length = N - 1
      ∧ (∀ k, k < rank → (initBuf msg_arr rank N).getD k 0 = msg_arr k)
      ∧ (∀ k, rank < k → k < N →
          (initBuf msg_arr rank N).getD (k - 1) 0 = msg_arr k)
      ∧ initBuf msg_arr rank N
          = ((List.range N).filter (fun k => ¬ k = rank)).map msg_arr := by
  have he : initBuf msg_arr rank N
      = (List.range rank ++ List.range' (rank + 1) (N - (rank + 1))).map
          msg_arr := by
    rw [initBuf_eq _ _ _ hrank, remDests_eq_of_le hrank (by omega) (by omega)]
  have hlen : ((List.range rank
      ++ List.range' (rank + 1) (N - (rank + 1))).map msg_arr).length
      = N - 1 := by
    rw [List.length_map, List.length_append, List.length_range,
      List.length_range']
    omega
  refine ⟨?_, ?_, ?_, ?_⟩
  · rw [he, hlen]
  · intro k hk
    have hb : k < ((List.range rank
        ++ List.range' (rank + 1) (N - (rank + 1))).map msg_arr).length := by
      rw [hlen]
      omega
    rw [he, getD_eq_getElem_of_lt _ hb, List.getElem_map,
      List.getElem_append_left (by rw [List.length_range]; omega),
      List.getElem_range]
  · intro k hk1 hk2
    have hb : k - 1 < ((List.range rank
        ++ List.range' (rank + 1) (N - (rank + 1))).map msg_arr).length := by
      rw [hlen]
      omega
    rw [he, getD_eq_getElem_of_lt _ hb, List.getElem_map,
      List.getElem_append_right (by rw [List.length_range]; omega)]
    rw [List.getElem_range']
    congr 1
    rw [List.length_range]
    omega
  · exact filterMap_if_eq_map_filter msg_arr rank (List.range N)

theorem initial_buffer_construction_witness :
    (initBuf (exMsg 1) 1 3).length = 3 - 1
      ∧ (∀ k, k < 1 → (initBuf (exMsg 1) 1 3).getD k 0 = exMsg 1 k)
      ∧ (∀ k, 1 < k → k < 3 →
          (initBuf (exMsg 1) 1 3).getD (k - 1) 0 = exMsg 1 k)
      ∧ initBuf (exMsg 1) 1 3
          = ((List.range 3).filter (fun k => ¬ k = 1)).map (exMsg 1) :=
  initial_buffer_construction 3 (exMsg 1) 1 (by decide) (by decide)

/-- C5: Completeness: for every `N ≥ 2` and rank `r`, after the `N - 1`
rounds every slot `res[k]`, `k < N`, holds a value (no gaps), and each
round's store targets a slot that is still unwritten at that point (no slot
is written twice, counting the initial self-delivery store). -/
theorem completeness (N : Nat) (msg : Nat → Nat → Int) (r : Nat)
    (hN : 2 ≤ N) (hr : r < N) :
    (∀ k, k < N → ∃ v, (all_to_all_personalized N msg).res r k = some v)
      ∧ ∀ i, 1 ≤ i → i ≤ N - 1 →
          (stateAfter N msg (i - 1)).res r (origin N r i) = none := by
  constructor
  · intro k hk
    exact ⟨msg k r, res_final N msg k r hk hr⟩
  · intro i h1 h2
    have hne := origin_ne_self hr h1 h2
    have hpers := res_persist N msg r (origin N r i) (i - 1) 0 (by omega)
      (fun j hj1 hj2 hc => by
        have := origin_inj hr (by omega) (by omega) h1 h2 hc
        omega)
    rw [hpers, res_init, if_neg hne]

theorem completeness_witness :
    (∀ k, k < 3 → ∃ v, (all_to_all_personalized 3 exMsg).res 0 k = some v)
      ∧ ∀ i, 1 ≤ i → i ≤ 3 - 1 →
          (stateAfter 3 exMsg (i - 1)).res 0 (origin 3 0 i) = none :=
  completeness 3 exMsg 0 (by decide) (by decide)

/-- C6: Extraction index stays in bounds: for every rank `r < N` and round
`i` in `1 .. N-1`, the computed `data_index` is smaller than the current
buffer length `N - i`, and the freshly received buffer indeed has exactly
`N - i` valid elements, so neither the read at `data_index` nor the
compaction reaches past the valid portion; the
logic-invariant-violation case is unreachable. -/
theorem data_index_in_bounds (N : Nat) (i r : Nat) (hr : r < N)
    (h1 : 1 ≤ i) (h2 : i ≤ N - 1) :
    dataIndex r (origin N r i) < N - i
      ∧ ∀ msg : Nat → Nat → Int,
          (((stateAfter N msg (i - 1)).bufs ((r + N - 1) % N)).take
            (N - i)).length = N - i := by
  constructor
  · rw [origin_spec hr (by omega)]
    simp only [dataIndex]
    split_ifs <;> omega
  · intro msg
    obtain ⟨n, hn⟩ : ∃ n, i = n + 1 := ⟨i - 1, by omega⟩
    subst hn
    have hi1 : n + 1 - 1 = n := by omega
    rw [hi1, recvd_eq N msg n r h2 hr, List.length_map]
    exact remDests_length (origin_lt (by omega)) (by omega) (by omega)

theorem data_index_in_bounds_witness :
    dataIndex 0 (origin 3 0 2) < 3 - 2
      ∧ ∀ msg : Nat → Nat → Int,
          (((stateAfter 3 msg (2 - 1)).bufs ((0 + 3 - 1) % 3)).take
            (3 - 2)).length = 3 - 2 :=
  data_index_in_bounds 3 2 0 (by decide) (by decide) (by decide)

/-- C7: Compaction correctness and buffer shrink law: removing index `idx`
from an array of `size` valid elements shifts every later element left by
one, preserving the survivors' order and leaving `size - 1` valid elements;
and in the exchange the buffer has `N - i` valid elements at the start of
round `i` and `N - i - 1` after that round's compaction, the size sent in
round `i + 1`. -/
theorem compaction_shrink (arr : List Int) (size idx : Nat)
    (hidx : idx < size) (hlen : arr.length = size) :
    (compact_array idx arr size).take (size - 1)
        = arr.take idx ++ arr.drop (idx + 1)
      ∧ (compact_array idx arr size).length = size
      ∧ (arr.take idx ++ arr.drop (idx + 1)).length = size - 1
      ∧ ∀ (N : Nat) (msg : Nat → Nat → Int) (i r : Nat), 1 ≤ i →
          i ≤ N - 1 → r < N →
          (((stateAfter N msg (i - 1)).bufs r).take (N - i)).length = N - i
            ∧ (((stateAfter N msg i).bufs r).take (N - i - 1)).length
                = N - i - 1 := by
  refine ⟨compact_array_take idx arr size hidx hlen, ?_, ?_, ?_⟩
  · rw [compact_array_length, hlen]
  · rw [List.length_append, List.length_take, List.length_drop, hlen]
    omega
  · intro N msg i r h1 h2 hrN
    obtain ⟨n, hn⟩ : ∃ n, i = n + 1 := ⟨i - 1, by omega⟩
    subst hn
    have hi1 : n + 1 - 1 = n := by omega
    have hidx2 : N - (n + 1) = N - n - 1 := by omega
    constructor
    · rw [hi1]
      have h := buf_invariant N msg n (by omega) r hrN
      rw [hidx2, h, List.length_map]
      have hres := @remDests_length N (origin N r n) (n + 1)
        (@origin_lt N r n (by omega)) (by omega) (by omega)
      rw [hres]
      omega
    · have h := buf_invariant N msg (n + 1) (by omega) r hrN
      rw [h, List.length_map]
      have hres := @remDests_length N (origin N r (n + 1)) (n + 1 + 1)
        (@origin_lt N r (n + 1) (by omega)) (by omega) (by omega)
      rw [hres]
      omega

theorem compaction_shrink_witness :
    (compact_array 1 [10, 20, 30] 3).take (3 - 1)
        = [10, 20, 30].take 1 ++ [10, 20, 30].drop (1 + 1)
      ∧ (compact_array 1 [10, 20, 30] 3).length = 3
      ∧ ([10, 20, 30].take 1 ++ [10, 20, 30].drop (1 + 1)).length = 3 - 1
      ∧ ∀ (N : Nat) (msg : Nat → Nat → Int) (i r : Nat), 1 ≤ i →
          i ≤ N - 1 → r < N →
          (((stateAfter N msg (i - 1)).bufs r).take (N - i)).length = N - i
            ∧ (((stateAfter N msg i).bufs r).take (N - i - 1)).length
                = N - i - 1 :=
  compaction_shrink [10, 20, 30] 3 1 (by decide) (by decide)

/-- C9: Self-delivery: for every `N ≥ 1` and `rank < N`,
`res[rank] = msg[rank]` holds immediately after initialization, before any
round executes; no round ever targets that slot, and it still holds the
same value after every round. -/
theorem self_delivery (N : Nat) (msg : Nat → Nat → Int) (rank : Nat)
    (hN : 1 ≤ N) (hrank : rank < N) :
    (stateAfter N msg 0).res rank rank = some (msg rank rank)
      ∧ (∀ i, 1 ≤ i → i ≤ N - 1 → origin N rank i ≠ rank)
      ∧ ∀ n, n ≤ N - 1 →
          (stateAfter N msg n).res rank rank = some (msg rank rank) := by
  refine ⟨by rw [res_init, if_pos rfl],
    fun i h1 h2 => origin_ne_self hrank h1 h2, ?_⟩
  intro n hn
  have hpers := res_persist N msg rank rank n 0 (by omega)
    (fun j hj1 hj2 => origin_ne_self hrank hj1 (by omega))
  rw [hpers, res_init, if_pos rfl]

theorem self_delivery_witness :
    (stateAfter 3 exMsg 0).res 2 2 = some (exMsg 2 2)
      ∧ (∀ i, 1 ≤ i → i ≤ 3 - 1 → origin 3 2 i ≠ 2)
      ∧ ∀ n, n ≤ 3 - 1 →
          (stateAfter 3 exMsg n).res 2 2 = some (exMsg 2 2) :=
  self_delivery 3 exMsg 2 (by decide) (by decide)

/-- C10: Frame property of `compact_array`: only positions `idx` through
`size - 2` are written (each taking the old value of its successor);
positions below `idx` and positions `≥ size - 1` keep their previous
values — in particular the physical cell `size - 1` keeps a stale duplicate
of the old final element — and for `idx = size - 1` the array is left
entirely unchanged. -/
theorem compact_frame (arr : List Int) (size idx : Nat) (hidx : idx < size) :
    (∀ p, p < idx → (compact_array idx arr size).getD p 0 = arr.getD p 0)
      ∧ (∀ p, size - 1 ≤ p →
          (compact_array idx arr size).getD p 0 = arr.getD p 0)
      ∧ (∀ p, idx ≤ p → p + 1 < size →
          (compact_array idx arr size).getD p 0 = arr.getD (p + 1) 0)
      ∧ (idx = size - 1 → compact_array idx arr size = arr) := by
  refine ⟨?_, ?_, ?_, ?_⟩
  · intro p hp
    rw [compact_array_getD, if_neg (by omega)]
  · intro p hp
    rw [compact_array_getD, if_neg (by omega)]
  · intro p h1 h2
    rw [compact_array_getD, if_pos ⟨h1, h2⟩]
  · intro h
    unfold compact_array
    have hz : size - (idx + 1) = 0 := by omega
    rw [hz]
    rfl

theorem compact_frame_witness :
    (∀ p, p < 1 → (compact_array 1 [10, 20, 30, 40] 4).getD p 0
        = [10, 20, 30, 40].getD p 0)
      ∧ (∀ p, 4 - 1 ≤ p → (compact_array 1 [10, 20, 30, 40] 4).getD p 0
          = [10, 20, 30, 40].getD p 0)
      ∧ (∀ p, 1 ≤ p → p + 1 < 4 →
          (compact_array 1 [10, 20, 30, 40] 4).getD p 0
            = [10, 20, 30, 40].getD (p + 1) 0)
      ∧ (1 = 4 - 1 → compact_array 1 [10, 20, 30, 40] 4 = [10, 20, 30, 40]) :=
  compact_frame [10, 20, 30, 40] 4 1 (by decide)

/-- C8 (refuted): the value the code returns is not the accumulated
wall-clock time spent inside the send and receive calls. With the concrete
clock oracle `exEv` for `N = 3` (clock starts at 1000, sends take one unit,
displays and receives instantaneous), line 101's
`time_taken = disp_time - time_taken` destroys the running total after the
first round: the code returns 1001 while the total send/receive time is 2. -/
theorem timing_bug :
    timeTakenModel 3 exEv = 1001 ∧ specCommTime 3 exEv = 2
      ∧ timeTakenModel 3 exEv ≠ specCommTime 3 exEv := by
  refine ⟨?_, ?_, ?_⟩
  · simp only [timeTakenModel, exEv]
    norm_num [List.range_succ]
  · simp only [specCommTime, exEv]
    norm_num [List.range_succ]
  · simp only [timeTakenModel, specCommTime, exEv]
    norm_num [List.range_succ]

end RingAllToAll
